import Mathlib

/-!
Verification of the version-extraction engine of `version_rss_api.py`.

The program polls software release sources and extracts, per software, the
latest stable version.  We embed the decision logic shallowly:

* titles and version strings are `List Char` (`Str`);
* the external library call `packaging.version.parse` is modelled on the
  numeric `release` fragment of its grammar that the spec relies on
  (an optional leading `v`, then dot-separated decimal components);
  a string outside that fragment fails to parse, which in the Python
  program surfaces as a raised `InvalidVersion` — modelled as
  `Except.error ()` in the extractor run;
* network fetching is out of scope: every extractor run is a function of
  the already-fetched response (list of feed entry titles, or the
  version-to-status mapping for the single-endpoint extractor).
-/

set_option maxHeartbeats 1000000

namespace VersionRssApi

/-- Strings are modelled as lists of characters. -/
abbrev Str := List Char

/-! ## Generic helpers (Python string primitives used by the source) -/

/-- Python `s.split(sep)` for a single-character separator: splits on every
occurrence of `sep`, keeping empty segments (`"a  b".split(' ') = ["a","","b"]`). -/
def splitOnChar (sep : Char) : Str → List Str
  | [] => [[]]
  | c :: rest =>
    if c = sep then [] :: splitOnChar sep rest
    else
      match splitOnChar sep rest with
      | [] => [[c]]
      | p :: ps => (c :: p) :: ps

/-- Join segments with a single-character separator (inverse of `splitOnChar`);
used to model `packaging`'s `str(Version)` which joins release components with `'.'`. -/
def joinChar (sep : Char) : List Str → Str
  | [] => []
  | [p] => p
  | p :: ps => p ++ sep :: joinChar sep ps

/-- Python `needle in hay` on strings: substring containment. -/
def containsSub (needle : Str) : Str → Bool
  | [] => decide (needle = [])
  | c :: rest => needle.isPrefixOf (c :: rest) || containsSub needle rest

/-- Python `s.lower()` (ASCII titles in this program). -/
def lowerStr (s : Str) : Str := s.map Char.toLower

/-- Python `s.strip('v')`: remove every leading and every trailing `'v'`. -/
def stripVBoth (s : Str) : Str :=
  ((s.dropWhile (· = 'v')).reverse.dropWhile (· = 'v')).reverse

/-! ## The modelled `packaging.version` dependency -/

/-- A parsed version: the numeric release components, most significant first.
Models the `release` tuple of a `packaging.version.Version`. -/
structure Version where
  release : List ℕ
deriving DecidableEq, Repr

/-- Parse one dot-separated component: a nonempty run of decimal digits
(leading zeros allowed, as in `packaging`). -/
def parseNatDigits (cs : Str) : Option ℕ :=
  if cs = [] then none
  else if cs.all Char.isDigit then
    some (cs.foldl (fun a c => a * 10 + (c.toNat - 48)) 0)
  else none

/-- Remove a single leading `'v'`, if present. -/
def stripLeadV : Str → Str
  | [] => []
  | c :: r => if c = 'v' then r else c :: r

/-- Parse every dot-separated component; `none` if any component is not a
digit run. -/
def parseComponents : List Str → Option (List ℕ)
  | [] => some []
  | p :: ps =>
    match parseNatDigits p with
    | none => none
    | some n => (parseComponents ps).map (n :: ·)

/-- Modelled `packaging.version.parse`, restricted to the numeric `release`
fragment the spec describes (§3, §7): an optional single leading `v`, then
one or more dot-separated decimal components.  Anything else fails to parse,
which the Python library reports by raising. -/
def Version.parse (cs : Str) : Option Version :=
  match parseComponents (splitOnChar '.' (stripLeadV cs)) with
  | some parts => some ⟨parts⟩
  | none => none

/-- Decimal rendering of one component (Python `str(int)`). -/
def natRepr (n : ℕ) : Str :=
  if n = 0 then ['0'] else ((Nat.digits 10 n).reverse.map Nat.digitChar)

/-- Modelled `str(packaging.version.Version)`: release components joined by dots. -/
def Version.format (v : Version) : Str :=
  joinChar '.' (v.release.map natRepr)

/-- Comparison key used by `packaging` for the release tuple: trailing zero
components are dropped before tuple comparison (`1.0 == 1.0.0`). -/
def stripZeros (l : List ℕ) : List ℕ :=
  (l.reverse.dropWhile (· = 0)).reverse

/-- Python tuple `<` on lists of integers: lexicographic, a proper initial
segment is smaller than its extensions. -/
def listLt : List ℕ → List ℕ → Bool
  | _, [] => false
  | [], _ :: _ => true
  | a :: as, b :: bs => decide (a < b) || (decide (a = b) && listLt as bs)

/-- Modelled `packaging.version.Version.__lt__` on the release fragment. -/
def Version.lt (v w : Version) : Bool :=
  listLt (stripZeros v.release) (stripZeros w.release)

/-- Python `max(v :: vs)`: fold keeping the current element unless a strictly
greater one appears (the first maximal element wins). -/
def pyMax (v : Version) (vs : List Version) : Version :=
  vs.foldl (fun acc x => if Version.lt acc x then x else acc) v

/-! ## Title rules (the `version_from_title` overrides of the source) -/

/-- The per-plugin `version_from_title` behaviours found in the source:
* `identity` — `DolibarrPlugin` / `HumhubPlugin` (line 167‑168, 184‑185): the title is the version;
* `stripRest pre` — `SignalCliPlugin` (line 103‑105, `title[8:]` guarded by
  `startswith('Version ')`) and `RoundcubePlugin` (line 135‑137, `title[18:]`):
  the whole remainder after the literal `pre`;
* `tokenAfter pre` — `FroxlorPlugin` (line 201‑203, `title.split(' ')[1]`
  guarded by `startswith('Froxlor ')`);
* `vSemver` — `GithubReleasesWithVPrefixAndSemVer.version_from_title`
  (line 84‑87): `title.strip('v')` then `semver_regex.match`. -/
inductive TitleRule where
  | identity
  | stripRest (pre : Str)
  | tokenAfter (pre : Str)
  | vSemver
deriving DecidableEq, Repr

/-- After the second dot the pattern `\d{1,4}` only needs one available
digit (greedy, nothing follows it in the regex). -/
def semverThird : Str → Bool
  | [] => false
  | c :: rest =>
    decide (c = '.') &&
      match rest with
      | [] => false
      | d :: _ => d.isDigit

/-- After the first digit group: a dot, a second digit group of length 1..4
(backtracking cannot shorten a digit run whose successor is a digit), then
the third part. -/
def semverSecond : Str → Bool
  | [] => false
  | c :: r2 =>
    decide (c = '.') &&
      (decide (1 ≤ (r2.takeWhile Char.isDigit).length ∧
          (r2.takeWhile Char.isDigit).length ≤ 4) &&
        semverThird (r2.dropWhile Char.isDigit))

/-- The test `re.compile(r'\d{1,4}\.\d{1,4}\.\d{1,4}').match(t)` as a Boolean
(the source only tests the match object for truthiness, line 86): the
pattern must match starting at position 0.  With this pattern, matching
succeeds exactly when the two leading digit runs have length 1..4 and are
each followed by `'.'`, and at least one digit follows the second dot. -/
def semverMatch (t : Str) : Bool :=
  decide (1 ≤ (t.takeWhile Char.isDigit).length ∧
      (t.takeWhile Char.isDigit).length ≤ 4) &&
    semverSecond (t.dropWhile Char.isDigit)

/-- The `version_from_title` dispatch, one case per override in the source. -/
def versionFromTitle : TitleRule → Str → Option Str
  | .identity, t => some t
  | .stripRest pre, t =>
    if pre.isPrefixOf t then some (t.drop pre.length) else none
  | .tokenAfter pre, t =>
    if pre.isPrefixOf t then some ((splitOnChar ' ' t).getD 1 []) else none
  | .vSemver, t =>
    if semverMatch (stripVBoth t) then some (stripVBoth t) else none

/-! ## The GitHub feed extractor (`GithubReleases.__call__`, lines 56‑69) -/

/-- The list `GithubReleases.VERSION_BLOCKLIST` (line 54). -/
def versionBlocklist : List Str := [('b' :: 'e' :: 't' :: 'a' :: []), ('r' :: 'c' :: [])]

/-- Line 63: `any(block in title.lower() for block in self.VERSION_BLOCKLIST)`. -/
def releaseBlocked (blocklist : List Str) (title : Str) : Bool :=
  blocklist.any (fun block => containsSub block (lowerStr title))

/-- The candidate contributed by one feed entry (loop body, lines 62‑66):
`none` if the title is blocked, if `version_from_title` returns `None`, or if
it returns an empty string (`if version:` is Python truthiness). -/
def entryCandidate (rule : TitleRule) (title : Str) : Option Str :=
  if releaseBlocked versionBlocklist title then none
  else
    match versionFromTitle rule title with
    | none => none
    | some v => if v = [] then none else some v

/-- The `versions` list accumulated by the loop of lines 60‑67; a candidate
that `packaging.version.parse` rejects raises, aborting the run
(`Except.error ()`). -/
def collectVersions (rule : TitleRule) : List Str → Except Unit (List Version)
  | [] => .ok []
  | t :: ts =>
    match entryCandidate rule t with
    | none => collectVersions rule ts
    | some v =>
      match Version.parse v with
      | none => .error ()
      | some pv =>
        match collectVersions rule ts with
        | .error e => .error e
        | .ok vs => .ok (pv :: vs)

/-- The body of `GithubReleases.__call__` after the fetch (lines 60‑69):
`str(max(versions)) if len(versions) > 0 else None`. -/
def githubCall (rule : TitleRule) (titles : List Str) : Except Unit (Option Str) :=
  match collectVersions rule titles with
  | .error e => .error e
  | .ok [] => .ok none
  | .ok (v :: vs) => .ok (some (Version.format (pyMax v vs)))

/-- Declarative companion of the loop: the candidate strings of the entries
that pass the blocklist and yield a nonempty candidate. -/
def qualifying (rule : TitleRule) (titles : List Str) : List Str :=
  titles.filterMap (entryCandidate rule)

/-- Parse every candidate; `none` as soon as one candidate is unparsable. -/
def parseAll : List Str → Option (List Version)
  | [] => some []
  | v :: vs =>
    match Version.parse v with
    | none => none
    | some pv => (parseAll vs).map (pv :: ·)

/-! ## The single-endpoint extractor (`WordpressPlugin.__call__`, lines 45‑50) -/

/-- The status label the Wordpress extractor looks for (line 49). -/
def latestLabel : Str := ('l' :: 'a' :: 't' :: 'e' :: 's' :: 't' :: [])

/-- The body of `WordpressPlugin.__call__` after the fetch: iterate the response mapping
in order and return the first version whose status is `"latest"`; falling off
the loop returns `None`. -/
def wordpressCall (entries : List (Str × Str)) : Option Str :=
  (entries.find? (fun e => e.2 = latestLabel)).map (·.1)

/-! ## Registry and aggregation (`most_recent`, lines 238‑252) -/

/-- A configured plugin: the single-endpoint Wordpress extractor, or a
GitHub-feed extractor with its `software_name`, `user`, `repo` and title rule. -/
inductive Plugin where
  | wordpress
  | github (name user repo : Str) (rule : TitleRule)
deriving DecidableEq, Repr

/-- The `software_name` property of each plugin. -/
def softwareName : Plugin → Str
  | .wordpress => ('w' :: 'o' :: 'r' :: 'd' :: 'p' :: 'r' :: 'e' :: 's' :: 's' :: [])
  | .github n _ _ _ => n

/-- The fixed responses one aggregation run works against: the JSON mapping
served to the Wordpress extractor and, per `user`/`repo`, the feed entry
titles served to a GitHub extractor. -/
structure Env where
  wordpressResponse : List (Str × Str)
  feed : Str → Str → List Str

/-- One extractor run against fixed responses. -/
def runPlugin (env : Env) : Plugin → Except Unit (Option Str)
  | .wordpress => .ok (wordpressCall env.wordpressResponse)
  | .github _ user repo rule => githubCall rule (env.feed user repo)

/-- The ten preconfigured extractors of `most_recent` (lines 240‑251), in
source order, with their `software_name`, `user`, `repo` and title rule. -/
def registry : List Plugin :=
  [ .wordpress
  , .github ("signal-cli").toList ("AsamK").toList ("signal-cli").toList
      (.stripRest ("Version ").toList)
  , .github ("nextcloud").toList ("nextcloud").toList ("server").toList .vSemver
  , .github ("roundcube").toList ("roundcube").toList ("roundcubemail").toList
      (.stripRest ("Roundcube Webmail ").toList)
  , .github ("dolibarr").toList ("Dolibarr").toList ("dolibarr").toList .identity
  , .github ("humhub").toList ("humhub").toList ("humhub").toList .identity
  , .github ("froxlor").toList ("Froxlor").toList ("Froxlor").toList
      (.tokenAfter ("Froxlor ").toList)
  , .github ("rainloop").toList ("RainLoop").toList ("rainloop-webmail").toList .vSemver
  , .github ("cyberchef").toList ("gchq").toList ("CyberChef").toList .vSemver
  , .github ("arangodb").toList ("arangodb").toList ("ArangoDB").toList .vSemver ]

/-- Aggregate a registry against fixed responses: the association list
`software_name ↦ extractor result` (line 252 builds a `dict` from exactly
these pairs). -/
def aggregate (reg : List Plugin) (env : Env) : List (Str × Except Unit (Option Str)) :=
  reg.map (fun p => (softwareName p, runPlugin env p))

/-- The `/v1/most_recent` aggregation over the fixed registry. -/
def most_recent (env : Env) : List (Str × Except Unit (Option Str)) :=
  aggregate registry env

/-- Two response environments agree on everything the given plugin fetches. -/
def envAgreeAt (env env' : Env) : Plugin → Prop
  | .wordpress => env.wordpressResponse = env'.wordpressResponse
  | .github _ user repo _ => env.feed user repo = env'.feed user repo

/-! ## Spec-side definitions (for refinement comparisons only) -/

/-- The first whitespace-delimited token of a string. -/
def firstTokenOf (s : Str) : Str := s.takeWhile (· ≠ ' ')

/-- Modelled from the spec (§4.1, claim C3's reading): strip a *single*
optional leading `v`, then require the semver pattern at position 0 and
return the *matched substring*.  This follows the spec's words; the source's
`version_from_title` (vSemver case) is compared against it. -/
def specVSemver (t : Str) : Option Str :=
  let body := stripLeadV t
  let d1 := body.takeWhile Char.isDigit
  let r1 := body.dropWhile Char.isDigit
  if 1 ≤ d1.length ∧ d1.length ≤ 4 then
    match r1 with
    | '.' :: r2 =>
      let d2 := r2.takeWhile Char.isDigit
      let r3 := r2.dropWhile Char.isDigit
      if 1 ≤ d2.length ∧ d2.length ≤ 4 then
        match r3 with
        | '.' :: r4 =>
          let d3 := (r4.takeWhile Char.isDigit).take 4
          if d3 = [] then none
          else some (d1 ++ '.' :: d2 ++ '.' :: d3)
        | _ => none
      else none
    | _ => none
  else none

/-- Modelled from the spec (claim C7's reading of §4.3b): after the literal
`pre`, keep only the first whitespace-delimited token. -/
def specFirstTokenCandidate (pre : Str) (t : Str) : Option Str :=
  if pre.isPrefixOf t then some (firstTokenOf (t.drop pre.length)) else none

/-! ## Helper lemmas about the string primitives -/

theorem isPrefixOf_iff_exists (a b : Str) : a.isPrefixOf b = true ↔ ∃ t, b = a ++ t := by
  induction a generalizing b with
  | nil => simp [List.isPrefixOf]
  | cons c cs ih =>
    cases b with
    | nil => simp [List.isPrefixOf]
    | cons d ds =>
      simp only [List.isPrefixOf, Bool.and_eq_true, beq_iff_eq, ih, List.cons_append,
        List.cons.injEq]
      constructor
      · rintro ⟨rfl, t, rfl⟩
        exact ⟨t, rfl, rfl⟩
      · rintro ⟨t, rfl, rfl⟩
        exact ⟨rfl, t, rfl⟩

theorem takeWhile_all_append {α : Type} {p : α → Bool} {a : List α}
    (ha : ∀ c ∈ a, p c = true) {b : α} (hb : p b = false) (rest : List α) :
    (a ++ b :: rest).takeWhile p = a ∧ (a ++ b :: rest).dropWhile p = b :: rest := by
  induction a with
  | nil => simp [List.takeWhile_cons, List.dropWhile_cons, hb]
  | cons c cs ih =>
    have hc : p c = true := ha c (by simp)
    have ih' := ih (fun x hx => ha x (by simp [hx]))
    simp [List.takeWhile_cons, List.dropWhile_cons, hc, ih'.1, ih'.2]

theorem splitOnChar_ne_nil (sep : Char) (cs : Str) : splitOnChar sep cs ≠ [] := by
  cases cs with
  | nil => simp [splitOnChar]
  | cons c rest =>
    simp only [splitOnChar]
    split
    · simp
    · split <;> simp

theorem splitOnChar_no_sep {sep : Char} {cs : Str} (h : ∀ c ∈ cs, c ≠ sep) :
    splitOnChar sep cs = [cs] := by
  induction cs with
  | nil => rfl
  | cons c rest ih =>
    have hc : c ≠ sep := h c (by simp)
    have ih' := ih (fun x hx => h x (by simp [hx]))
    simp only [splitOnChar, if_neg hc, ih']

theorem splitOnChar_append_sep {sep : Char} {a : Str} (h : ∀ c ∈ a, c ≠ sep) (rest : Str) :
    splitOnChar sep (a ++ sep :: rest) = a :: splitOnChar sep rest := by
  induction a with
  | nil => simp [splitOnChar]
  | cons c cs ih =>
    have hc : c ≠ sep := h c (by simp)
    have ih' := ih (fun x hx => h x (by simp [hx]))
    simp only [List.cons_append, splitOnChar, if_neg hc, List.append_eq, ih']

theorem splitOnChar_head (sep : Char) (cs : Str) :
    ∃ ps, splitOnChar sep cs = (cs.takeWhile (fun c => c ≠ sep)) :: ps := by
  induction cs with
  | nil => exact ⟨[], rfl⟩
  | cons c rest ih =>
    by_cases hc : c = sep
    · subst hc
      refine ⟨splitOnChar c rest, ?_⟩
      simp [splitOnChar, List.takeWhile_cons]
    · obtain ⟨ps, hps⟩ := ih
      refine ⟨ps, ?_⟩
      simp [splitOnChar, if_neg hc, hps, List.takeWhile_cons, hc]

theorem containsSub_iff (needle hay : Str) :
    containsSub needle hay = true ↔ ∃ l r, hay = l ++ needle ++ r := by
  induction hay with
  | nil =>
    simp only [containsSub, decide_eq_true_eq]
    constructor
    · rintro rfl
      exact ⟨[], [], rfl⟩
    · rintro ⟨l, r, h⟩
      rcases List.append_eq_nil.mp (List.append_eq_nil.mp h.symm).1 with ⟨-, h2⟩
      exact h2
  | cons c rest ih =>
    simp only [containsSub, Bool.or_eq_true, isPrefixOf_iff_exists, ih]
    constructor
    · rintro (⟨t, ht⟩ | ⟨l, r, rfl⟩)
      · exact ⟨[], t, by simp [ht]⟩
      · exact ⟨c :: l, r, rfl⟩
    · rintro ⟨l, r, h⟩
      cases l with
      | nil =>
        left
        exact ⟨r, by simpa using h⟩
      | cons x xs =>
        right
        rw [List.cons_append, List.cons_append, List.cons.injEq] at h
        exact ⟨xs, r, h.2⟩

/-! ## Helper lemmas about decimal rendering and parsing -/

theorem digitChar_spec : ∀ d, d < 10 → (Nat.digitChar d).isDigit = true ∧
    (Nat.digitChar d).toNat - 48 = d := by decide

theorem isDigit_ne_dot {c : Char} (h : c.isDigit = true) : c ≠ '.' := by
  rintro rfl
  exact absurd h (by decide)

theorem isDigit_ne_v {c : Char} (h : c.isDigit = true) : c ≠ 'v' := by
  rintro rfl
  exact absurd h (by decide)

theorem natRepr_digits (n : ℕ) : ∀ c ∈ natRepr n, c.isDigit = true := by
  intro c hc
  unfold natRepr at hc
  split at hc
  · simp at hc
    subst hc
    decide
  · simp only [List.mem_map, List.mem_reverse] at hc
    obtain ⟨d, hd, rfl⟩ := hc
    exact (digitChar_spec d (Nat.digits_lt_base (by norm_num) hd)).1

theorem natRepr_ne_nil (n : ℕ) : natRepr n ≠ [] := by
  unfold natRepr
  split
  · simp
  · simp only [ne_eq, List.map_eq_nil_iff, List.reverse_eq_nil_iff]
    exact Nat.digits_ne_nil_iff_ne_zero.mpr (by assumption)

theorem foldl_digits (L : List ℕ) (h : ∀ d ∈ L, d < 10) :
    ((L.reverse.map Nat.digitChar).foldl (fun a c => a * 10 + (c.toNat - 48)) 0)
      = Nat.ofDigits 10 L := by
  induction L with
  | nil => simp [Nat.ofDigits]
  | cons d ds ih =>
    have hd := (digitChar_spec d (h d (by simp))).2
    simp only [List.reverse_cons, List.map_append, List.map_cons, List.map_nil,
      List.foldl_append, List.foldl_cons, List.foldl_nil]
    rw [ih (fun x hx => h x (by simp [hx])), hd, Nat.ofDigits_cons]
    ring

theorem parseNatDigits_natRepr (n : ℕ) : parseNatDigits (natRepr n) = some n := by
  by_cases h0 : n = 0
  · subst h0
    rfl
  · have hd : ∀ d ∈ Nat.digits 10 n, d < 10 :=
      fun d hdm => Nat.digits_lt_base (by norm_num) hdm
    have hall : ((Nat.digits 10 n).reverse.map Nat.digitChar).all Char.isDigit = true := by
      simp only [List.all_eq_true, List.mem_map, List.mem_reverse]
      rintro c ⟨d, hdm, rfl⟩
      exact (digitChar_spec d (hd d hdm)).1
    have hne : (Nat.digits 10 n).reverse.map Nat.digitChar ≠ [] := by
      simp only [ne_eq, List.map_eq_nil_iff, List.reverse_eq_nil_iff]
      exact Nat.digits_ne_nil_iff_ne_zero.mpr h0
    unfold natRepr
    rw [if_neg h0]
    unfold parseNatDigits
    rw [if_neg hne, if_pos hall, foldl_digits _ hd, Nat.ofDigits_digits]

theorem format_three (a b c : ℕ) :
    Version.format ⟨[a, b, c]⟩ = natRepr a ++ '.' :: (natRepr b ++ '.' :: natRepr c) := by
  simp [Version.format, joinChar]

/-- Claim C9: formatting a parsed version candidate (three numeric
components) back to a string and re-parsing it yields an equal candidate. -/
theorem version_roundTrip (a b c : ℕ) :
    Version.parse (Version.format ⟨[a, b, c]⟩) = some ⟨[a, b, c]⟩ := by
  have hstrip : stripLeadV (natRepr a ++ '.' :: (natRepr b ++ '.' :: natRepr c))
      = natRepr a ++ '.' :: (natRepr b ++ '.' :: natRepr c) := by
    obtain ⟨c0, t0, h0⟩ := List.exists_cons_of_ne_nil (natRepr_ne_nil a)
    have h0v : c0 ≠ 'v' := isDigit_ne_v (natRepr_digits a c0 (by rw [h0]; simp))
    rw [h0, List.cons_append]
    simp [stripLeadV, h0v]
  have hsplit : splitOnChar '.' (natRepr a ++ '.' :: (natRepr b ++ '.' :: natRepr c))
      = [natRepr a, natRepr b, natRepr c] := by
    rw [splitOnChar_append_sep (fun x hx => isDigit_ne_dot (natRepr_digits a x hx)),
      splitOnChar_append_sep (fun x hx => isDigit_ne_dot (natRepr_digits b x hx)),
      splitOnChar_no_sep (fun x hx => isDigit_ne_dot (natRepr_digits c x hx))]
  simp only [Version.parse, format_three, hstrip, hsplit, parseComponents,
    parseNatDigits_natRepr]
  rfl

/-! ## Helper lemmas about the version ordering -/

theorem listLt_irrefl (l : List ℕ) : listLt l l = false := by
  induction l with
  | nil => rfl
  | cons a as ih => simp [listLt, ih]

theorem listLt_trans {a b c : List ℕ} (h1 : listLt a b = true) (h2 : listLt b c = true) :
    listLt a c = true := by
  induction a generalizing b c with
  | nil =>
    cases c with
    | nil =>
      cases b with
      | nil => exact h1
      | cons y ys => exact absurd h2 (by simp [listLt])
    | cons z zs => simp [listLt]
  | cons x xs ih =>
    cases b with
    | nil => exact absurd h1 (by simp [listLt])
    | cons y ys =>
      cases c with
      | nil => exact absurd h2 (by simp [listLt])
      | cons z zs =>
        simp only [listLt, Bool.or_eq_true, Bool.and_eq_true, decide_eq_true_eq] at h1 h2 ⊢
        rcases h1 with h1 | ⟨h1e, h1l⟩ <;> rcases h2 with h2 | ⟨h2e, h2l⟩
        · exact Or.inl (h1.trans h2)
        · exact Or.inl (by omega)
        · exact Or.inl (by omega)
        · exact Or.inr ⟨h1e.trans h2e, ih h1l h2l⟩

theorem listLt_trichotomy (a b : List ℕ) :
    listLt a b = true ∨ listLt b a = true ∨ a = b := by
  induction a generalizing b with
  | nil =>
    cases b with
    | nil => right; right; rfl
    | cons y ys => left; simp [listLt]
  | cons x xs ih =>
    cases b with
    | nil => right; left; simp [listLt]
    | cons y ys =>
      rcases Nat.lt_trichotomy x y with h | h | h
      · left; simp [listLt, h]
      · subst h
        rcases ih ys with h' | h' | h'
        · left; simp [listLt, h']
        · right; left; simp [listLt, h']
        · right; right; rw [h']
      · right; left; simp [listLt, h]

theorem versionLt_irrefl (v : Version) : Version.lt v v = false := listLt_irrefl _

theorem versionLt_trans {u v w : Version} (h1 : Version.lt u v = true)
    (h2 : Version.lt v w = true) : Version.lt u w = true := listLt_trans h1 h2

theorem versionLt_negTrans {u v w : Version} (h1 : Version.lt u v = false)
    (h2 : Version.lt v w = false) : Version.lt u w = false := by
  cases hu : Version.lt u w with
  | false => rfl
  | true =>
    exfalso
    unfold Version.lt at h1 h2 hu
    rcases listLt_trichotomy (stripZeros u.release) (stripZeros v.release) with h | h | h
    · rw [h] at h1
      exact Bool.noConfusion h1
    · have ht := listLt_trans h hu
      rw [h2] at ht
      exact Bool.noConfusion ht
    · rw [h] at hu
      rw [hu] at h2
      exact Bool.noConfusion h2

theorem pyMax_mem (v : Version) (vs : List Version) : pyMax v vs ∈ v :: vs := by
  induction vs generalizing v with
  | nil => simp [pyMax]
  | cons x xs ih =>
    unfold pyMax
    simp only [List.foldl_cons]
    have h := ih (if Version.lt v x then x else v)
    unfold pyMax at h
    rcases List.mem_cons.mp h with h | h
    · rw [h]
      split <;> simp
    · simp [h]

theorem pyMax_not_lt (v : Version) (vs : List Version) :
    ∀ w ∈ v :: vs, Version.lt (pyMax v vs) w = false := by
  induction vs generalizing v with
  | nil =>
    intro w hw
    simp only [List.mem_cons, List.not_mem_nil, or_false] at hw
    subst hw
    simpa [pyMax] using versionLt_irrefl _
  | cons x xs ih =>
    intro w hw
    unfold pyMax
    simp only [List.foldl_cons]
    by_cases hvx : Version.lt v x = true
    · rw [if_pos hvx]
      rcases List.mem_cons.mp hw with rfl | hw'
      · have hPx : Version.lt (pyMax x xs) x = false := ih x x (by simp)
        unfold pyMax at hPx
        cases hP : Version.lt
            (List.foldl (fun acc y => if Version.lt acc y then y else acc) x xs) w with
        | false => rfl
        | true =>
          have ht := versionLt_trans hP hvx
          rw [hPx] at ht
          exact Bool.noConfusion ht
      · have hx := ih x w hw'
        unfold pyMax at hx
        exact hx
    · rw [if_neg hvx]
      have hvx' : Version.lt v x = false := by
        cases h : Version.lt v x
        · rfl
        · exact absurd h hvx
      rcases List.mem_cons.mp hw with rfl | hw'
      · have hv := ih w w (by simp)
        unfold pyMax at hv
        exact hv
      · rcases List.mem_cons.mp hw' with rfl | hw''
        · have hPv : Version.lt (pyMax v xs) v = false := ih v v (by simp)
          unfold pyMax at hPv
          exact versionLt_negTrans hPv hvx'
        · have hv := ih v w (by simp [hw''])
          unfold pyMax at hv
          exact hv

theorem stripZeros_three (a b c : ℕ) :
    stripZeros [a, b, c] =
      if c = 0 then (if b = 0 then (if a = 0 then [] else [a]) else [a, b])
      else [a, b, c] := by
  by_cases hc : c = 0 <;> by_cases hb : b = 0 <;> by_cases ha : a = 0 <;>
    simp [stripZeros, List.dropWhile_cons, hc, hb, ha]

/-- Claim C4: the comparison used for max-selection orders two three-component
versions by their integer tuples lexicographically (major, minor, patch), not
as strings; in particular 2.10.0 is greater than 2.9.0. -/
theorem version_lt_numeric :
    (∀ a b c d e f : ℕ,
      (Version.lt ⟨[a, b, c]⟩ ⟨[d, e, f]⟩ = true ↔
        (a < d ∨ (a = d ∧ (b < e ∨ (b = e ∧ c < f)))))) ∧
    Version.lt ⟨[2, 9, 0]⟩ ⟨[2, 10, 0]⟩ = true ∧
    Version.lt ⟨[2, 10, 0]⟩ ⟨[2, 9, 0]⟩ = false := by
  refine ⟨?_, by decide, by decide⟩
  intro a b c d e f
  unfold Version.lt
  rw [stripZeros_three, stripZeros_three]
  by_cases hc : c = 0 <;> by_cases hb : b = 0 <;> by_cases ha : a = 0 <;>
    by_cases hf : f = 0 <;> by_cases he : e = 0 <;> by_cases hd : d = 0 <;>
    simp [listLt, hc, hb, ha, hf, he, hd] <;> omega

/-! ## The feed extractor run, characterised declaratively -/

theorem collectVersions_eq (rule : TitleRule) (titles : List Str) :
    collectVersions rule titles =
      match parseAll (qualifying rule titles) with
      | none => .error ()
      | some vs => .ok vs := by
  induction titles with
  | nil => rfl
  | cons t ts ih =>
    unfold collectVersions qualifying
    simp only [List.filterMap_cons]
    cases hec : entryCandidate rule t with
    | none =>
      unfold qualifying at ih
      exact ih
    | some v =>
      cases hp : Version.parse v with
      | none => simp [parseAll, hp]
      | some pv =>
        rw [ih]
        cases hr : parseAll (List.filterMap (entryCandidate rule) ts) <;>
          simp [parseAll, qualifying, hp, hr]

/-- Claim C1 (amended): if the run returns a version it is the formatted
maximum, under the modelled semantic ordering, of the parsed candidates of
exactly the entries that pass the blocklist and yield a nonempty candidate;
the run returns absent exactly when no entry passes the filter and yields a
candidate; but when some qualifying candidate fails to parse the run raises
(`error`) instead of returning absent. -/
theorem githubCall_characterization (rule : TitleRule) (titles : List Str) :
    (githubCall rule titles = .ok none ↔ parseAll (qualifying rule titles) = some []) ∧
    (githubCall rule titles = .error () ↔ parseAll (qualifying rule titles) = none) ∧
    (∀ out, githubCall rule titles = .ok (some out) →
      ∃ vs, parseAll (qualifying rule titles) = some vs ∧
        ∃ v, v ∈ vs ∧ out = Version.format v ∧ ∀ w ∈ vs, Version.lt v w = false) := by
  have hc := collectVersions_eq rule titles
  unfold githubCall
  rw [hc]
  cases hr : parseAll (qualifying rule titles) with
  | none => simp
  | some vs =>
    cases vs with
    | nil => simp
    | cons v rest =>
      refine ⟨by simp, by simp, ?_⟩
      intro out hout
      simp only [Except.ok.injEq, Option.some.injEq] at hout
      exact ⟨v :: rest, rfl, pyMax v rest, pyMax_mem v rest, hout.symm,
        pyMax_not_lt v rest⟩

/-- Witness for C1 at a concrete run: one unblocked, parseable title. -/
theorem githubCall_characterization_witness :
    ∃ vs, parseAll (qualifying TitleRule.identity [("3.1.4").toList]) = some vs ∧
      ∃ v, v ∈ vs ∧ Version.format ⟨[3, 1, 4]⟩ = Version.format v ∧
        ∀ w ∈ vs, Version.lt v w = false :=
  (githubCall_characterization TitleRule.identity [("3.1.4").toList]).2.2
    (Version.format ⟨[3, 1, 4]⟩) rfl

/-- Counterexample to claim C1 as stated: with the identity title rule, a
feed whose only entry is the digit-free title `hello` has no entry that both
passes the filter and parses, yet the run raises (`error`) instead of
returning absent. -/
theorem githubCall_unparsable_not_absent :
    Version.parse (("hello").toList) = none ∧
    githubCall TitleRule.identity [("hello").toList] = Except.error () ∧
    githubCall TitleRule.identity [("hello").toList] ≠ Except.ok none := by
  refine ⟨rfl, rfl, ?_⟩
  intro h
  rw [show githubCall TitleRule.identity [("hello").toList] = Except.error () from rfl] at h
  exact Except.noConfusion h

/-- Claim C2 (code evaluated at the failing input): a digit-free title that
passes the blocklist makes an identity-rule (Dolibarr/Humhub-style) run
raise instead of skipping the entry, while the vSemver variant skips it. -/
theorem malformed_title_raises :
    releaseBlocked versionBlocklist (("NewRelease").toList) = false ∧
    githubCall TitleRule.identity [("NewRelease").toList] = Except.error () ∧
    githubCall TitleRule.vSemver [("NewRelease").toList] = Except.ok none :=
  ⟨rfl, rfl, rfl⟩

/-- Claim C5: an entry is rejected by the release filter iff its lowercased
title contains at least one blocked substring; the default blocklist is
exactly `beta`, `rc`; a rejected entry contributes no candidate. -/
theorem releaseBlocked_characterization :
    (∀ blocklist title, releaseBlocked blocklist title = true ↔
      ∃ b ∈ blocklist, ∃ l r, lowerStr title = l ++ b ++ r) ∧
    versionBlocklist = [("beta").toList, ("rc").toList] ∧
    (∀ rule title, releaseBlocked versionBlocklist title = true →
      entryCandidate rule title = none) := by
  refine ⟨?_, rfl, ?_⟩
  · intro blocklist title
    simp only [releaseBlocked, List.any_eq_true, containsSub_iff]
  · intro rule title h
    unfold entryCandidate
    rw [if_pos h]

/-- Witness for C5: a beta release title is rejected and contributes no
candidate. -/
theorem releaseBlocked_characterization_witness :
    entryCandidate TitleRule.identity (("1.3.0-beta").toList) = none :=
  releaseBlocked_characterization.2.2 TitleRule.identity (("1.3.0-beta").toList) rfl

/-- Claim C6: the single-endpoint (Wordpress) extractor returns a version
whose status in the response mapping equals `latest`, and returns absent —
not an error — when no entry has that status. -/
theorem wordpressCall_latest (entries : List (Str × Str)) :
    ((∀ x ∈ entries, x.2 ≠ latestLabel) → wordpressCall entries = none) ∧
    (∀ v, wordpressCall entries = some v →
      ∃ s, (v, s) ∈ entries ∧ s = latestLabel) := by
  constructor
  · intro h
    unfold wordpressCall
    rw [List.find?_eq_none.mpr (fun x hx => by simp [h x hx])]
    rfl
  · intro v hv
    unfold wordpressCall at hv
    cases hf : entries.find? (fun e => e.2 = latestLabel) with
    | none =>
      rw [hf] at hv
      exact Option.noConfusion hv
    | some e =>
      rw [hf] at hv
      simp only [Option.map_some'] at hv
      have h1 := List.find?_some hf
      have h2 := List.mem_of_find?_eq_some hf
      simp only [decide_eq_true_eq] at h1
      refine ⟨e.2, ?_, h1⟩
      have hv' : e.1 = v := by injection hv
      rw [← hv', Prod.mk.eta]
      exact h2

/-- Witness for C6: the spec's §8 examples. -/
theorem wordpressCall_latest_witness :
    (∃ s, ((("6.2").toList : Str), s) ∈
        [(("6.1").toList, ("outdated").toList), (("6.2").toList, latestLabel)] ∧
      s = latestLabel) ∧
    wordpressCall [(("6.1").toList, ("outdated").toList)] = none :=
  ⟨(wordpressCall_latest _).2 (("6.2").toList) rfl,
   (wordpressCall_latest _).1 (by decide)⟩

/-- Claim C10: when several response entries have status `latest`, the
Wordpress extractor returns the first in iteration order and never inspects
later entries; the result therefore depends on the order of the mapping. -/
theorem wordpressCall_first_match :
    (∀ (l1 : List (Str × Str)) (e : Str × Str) (l2 : List (Str × Str)),
      (∀ x ∈ l1, x.2 ≠ latestLabel) → e.2 = latestLabel →
        wordpressCall (l1 ++ e :: l2) = some e.1) ∧
    wordpressCall [(("1.0").toList, latestLabel), (("2.0").toList, latestLabel)]
      = some (("1.0").toList) ∧
    wordpressCall [(("2.0").toList, latestLabel), (("1.0").toList, latestLabel)]
      = some (("2.0").toList) := by
  refine ⟨?_, rfl, rfl⟩
  intro l1 e l2
  induction l1 with
  | nil =>
    intro _ he
    unfold wordpressCall
    simp [List.find?_cons, he]
  | cons x xs ih =>
    intro h1 he
    have hx : ¬(x.2 = latestLabel) := h1 x (by simp)
    have ih' := ih (fun y hy => h1 y (by simp [hy])) he
    unfold wordpressCall at ih' ⊢
    simp only [List.cons_append, List.find?_cons, decide_eq_false hx]
    exact ih'

/-- Witness for C10: the first `latest` entry wins, later ones are ignored. -/
theorem wordpressCall_first_match_witness :
    wordpressCall [(("5.8").toList, ("outdated").toList), (("5.9").toList, latestLabel),
      (("6.0").toList, latestLabel)] = some (("5.9").toList) :=
  wordpressCall_first_match.1 [(("5.8").toList, ("outdated").toList)]
    ((("5.9").toList, latestLabel)) [((("6.0").toList), latestLabel)] (by decide) rfl

/-! ## The anchored semver pattern, characterised declaratively -/

theorem semverMatch_iff (u : Str) :
    semverMatch u = true ↔ ∃ d1 d2 d3 rest,
      u = d1 ++ '.' :: (d2 ++ '.' :: (d3 ++ rest)) ∧
      (∀ c ∈ d1, c.isDigit = true) ∧ 1 ≤ d1.length ∧ d1.length ≤ 4 ∧
      (∀ c ∈ d2, c.isDigit = true) ∧ 1 ≤ d2.length ∧ d2.length ≤ 4 ∧
      (∀ c ∈ d3, c.isDigit = true) ∧ 1 ≤ d3.length := by
  constructor
  · intro h
    unfold semverMatch at h
    simp only [Bool.and_eq_true, decide_eq_true_eq] at h
    obtain ⟨⟨h11, h12⟩, h2⟩ := h
    cases hr1 : u.dropWhile Char.isDigit with
    | nil =>
      rw [hr1] at h2
      exact absurd h2 (by simp [semverSecond])
    | cons c r2 =>
      rw [hr1] at h2
      unfold semverSecond at h2
      simp only [Bool.and_eq_true, decide_eq_true_eq] at h2
      obtain ⟨hc, ⟨h21, h22⟩, h3⟩ := h2
      cases hr3 : r2.dropWhile Char.isDigit with
      | nil =>
        rw [hr3] at h3
        exact absurd h3 (by simp [semverThird])
      | cons c' rest' =>
        rw [hr3] at h3
        unfold semverThird at h3
        simp only [Bool.and_eq_true, decide_eq_true_eq] at h3
        obtain ⟨hc', h4⟩ := h3
        cases rest' with
        | nil => exact absurd h4 (by simp)
        | cons d rest'' =>
          have hu : u = u.takeWhile Char.isDigit ++ '.' :: r2 := by
            conv_lhs => rw [← List.takeWhile_append_dropWhile Char.isDigit u]
            rw [hr1, hc]
          have hr2 : r2 = r2.takeWhile Char.isDigit ++ '.' :: (d :: rest'') := by
            conv_lhs => rw [← List.takeWhile_append_dropWhile Char.isDigit r2]
            rw [hr3, hc']
          refine ⟨u.takeWhile Char.isDigit, r2.takeWhile Char.isDigit, [d], rest'', ?_,
            fun c hc0 => List.mem_takeWhile_imp hc0, h11, h12,
            fun c hc0 => List.mem_takeWhile_imp hc0, h21, h22, ?_, by simp⟩
          · conv_lhs => rw [hu, hr2]
            simp
          · intro c hc0
            simp only [List.mem_singleton] at hc0
            subst hc0
            exact h4
  · rintro ⟨d1, d2, d3, rest, rfl, hd1, h11, h12, hd2, h21, h22, hd3, h31⟩
    unfold semverMatch
    have hdot : Char.isDigit '.' = false := by decide
    have h1 := takeWhile_all_append hd1 hdot (d2 ++ '.' :: (d3 ++ rest))
    simp only [Bool.and_eq_true, decide_eq_true_eq]
    refine ⟨?_, ?_⟩
    · rw [h1.1]
      exact ⟨h11, h12⟩
    · rw [h1.2]
      unfold semverSecond
      simp only [Bool.and_eq_true, decide_eq_true_eq]
      have h2 := takeWhile_all_append hd2 hdot (d3 ++ rest)
      refine ⟨by trivial, ⟨?_, ?_⟩, ?_⟩
      · rw [h2.1]; exact h21
      · rw [h2.1]; exact h22
      · rw [h2.2]
        unfold semverThird
        simp only [Bool.and_eq_true, decide_eq_true_eq]
        refine ⟨by trivial, ?_⟩
        cases d3 with
        | nil => simp at h31
        | cons e d3' =>
          simpa using hd3 e (by simp)

/-- Claim C3 (amended): the vSemver `version_from_title` strips ALL leading
and trailing `v` characters (Python `strip('v')`, not a single leading
`v`), requires the `\d{1,4}\.\d{1,4}\.\d{1,4}` pattern to match at position
0 of the stripped title, and when it matches returns the WHOLE stripped
title — not just the matched substring; when it does not match, no
candidate is returned. -/
theorem vSemver_characterization (t r : Str) :
    versionFromTitle TitleRule.vSemver t = some r ↔
      r = stripVBoth t ∧ ∃ d1 d2 d3 rest,
        r = d1 ++ '.' :: (d2 ++ '.' :: (d3 ++ rest)) ∧
        (∀ c ∈ d1, c.isDigit = true) ∧ 1 ≤ d1.length ∧ d1.length ≤ 4 ∧
        (∀ c ∈ d2, c.isDigit = true) ∧ 1 ≤ d2.length ∧ d2.length ≤ 4 ∧
        (∀ c ∈ d3, c.isDigit = true) ∧ 1 ≤ d3.length := by
  simp only [versionFromTitle]
  by_cases h : semverMatch (stripVBoth t) = true
  · rw [if_pos h]
    constructor
    · intro h'
      have hr : stripVBoth t = r := by injection h'
      subst hr
      exact ⟨rfl, (semverMatch_iff _).mp h⟩
    · rintro ⟨rfl, -⟩
      rfl
  · rw [if_neg h]
    constructor
    · intro h'
      exact Option.noConfusion h'
    · rintro ⟨rfl, hex⟩
      exact absurd ((semverMatch_iff _).mpr hex) h

/-- Witness for C3 (amended) at a concrete title. -/
theorem vSemver_characterization_witness :
    (("2.4.6 GA").toList : Str) = stripVBoth (("v2.4.6 GA").toList) ∧
      ∃ d1 d2 d3 rest,
        (("2.4.6 GA").toList : Str) = d1 ++ '.' :: (d2 ++ '.' :: (d3 ++ rest)) ∧
        (∀ c ∈ d1, c.isDigit = true) ∧ 1 ≤ d1.length ∧ d1.length ≤ 4 ∧
        (∀ c ∈ d2, c.isDigit = true) ∧ 1 ≤ d2.length ∧ d2.length ≤ 4 ∧
        (∀ c ∈ d3, c.isDigit = true) ∧ 1 ≤ d3.length :=
  (vSemver_characterization (("v2.4.6 GA").toList) (("2.4.6 GA").toList)).mp rfl

/-- Counterexample to claim C3 as stated: (1) on `v1.2.3 Release` the code
returns the whole stripped title, not the matched substring the claim
predicts; (2) on `vv1.2.3` the code strips both leading `v`s and matches,
while stripping a single leading `v` — as the claim states — would leave
`v1.2.3`, which does not match at position 0. -/
theorem vSemver_counterexample :
    versionFromTitle TitleRule.vSemver (("v1.2.3 Release").toList)
      = some (("1.2.3 Release").toList) ∧
    specVSemver (("v1.2.3 Release").toList) = some (("1.2.3").toList) ∧
    versionFromTitle TitleRule.vSemver (("vv1.2.3").toList) = some (("1.2.3").toList) ∧
    specVSemver (("vv1.2.3").toList) = none ∧
    versionFromTitle TitleRule.vSemver (("v1.2.3 Release").toList)
      ≠ specVSemver (("v1.2.3 Release").toList) := by
  refine ⟨rfl, rfl, rfl, rfl, by decide⟩

/-! ## The literal-prefix title rules -/

theorem stripRest_iff (pre t r : Str) :
    versionFromTitle (TitleRule.stripRest pre) t = some r ↔ t = pre ++ r := by
  simp only [versionFromTitle]
  by_cases hp : pre.isPrefixOf t = true
  · rw [if_pos hp]
    obtain ⟨u, rfl⟩ := (isPrefixOf_iff_exists pre t).mp hp
    rw [List.drop_left]
    constructor
    · intro h
      have hur : u = r := by injection h
      rw [hur]
    · intro h
      have hur : u = r := List.append_cancel_left h
      rw [hur]
  · rw [if_neg hp]
    constructor
    · intro h
      exact Option.noConfusion h
    · intro h
      exact absurd ((isPrefixOf_iff_exists pre t).mpr ⟨r, h⟩) hp

theorem tokenAfter_froxlor_iff (t r : Str) :
    versionFromTitle (TitleRule.tokenAfter (("Froxlor ").toList)) t = some r ↔
      ∃ rest, t = ("Froxlor ").toList ++ rest ∧ r = firstTokenOf rest := by
  simp only [versionFromTitle]
  by_cases hp : (("Froxlor ").toList : Str).isPrefixOf t = true
  · rw [if_pos hp]
    obtain ⟨rest, rfl⟩ := (isPrefixOf_iff_exists _ t).mp hp
    have hshape : (("Froxlor ").toList : Str) ++ rest = ("Froxlor").toList ++ ' ' :: rest :=
      rfl
    have hsplit : splitOnChar ' ' (("Froxlor ").toList ++ rest)
        = ("Froxlor").toList :: splitOnChar ' ' rest := by
      rw [hshape]
      exact splitOnChar_append_sep (by decide) rest
    obtain ⟨ps, hps⟩ := splitOnChar_head ' ' rest
    have hget : (splitOnChar ' ' (("Froxlor ").toList ++ rest)).getD 1 [] = firstTokenOf rest := by
      rw [hsplit, List.getD_cons_succ, hps, List.getD_cons_zero]
      rfl
    rw [hget]
    constructor
    · intro h
      have hfr : firstTokenOf rest = r := by injection h
      exact ⟨rest, rfl, hfr.symm⟩
    · rintro ⟨rest', hr', rfl⟩
      have : rest' = rest := (List.append_cancel_left hr'.symm)
      rw [this]
  · rw [if_neg hp]
    constructor
    · intro h
      exact Option.noConfusion h
    · rintro ⟨rest, hr, -⟩
      exact absurd ((isPrefixOf_iff_exists _ t).mpr ⟨rest, hr⟩) hp

/-- Claim C7 (amended): for the signal-cli and roundcube rules a title
starting with the literal prefix yields the ENTIRE remainder after the
prefix as candidate — not only the first whitespace-delimited token; for the
froxlor rule the candidate is the first space-delimited token after the
prefix; for all three, a title not starting with the prefix yields no
candidate. -/
theorem literal_head_rules_characterization (t r : Str) :
    (versionFromTitle (TitleRule.stripRest (("Version ").toList)) t = some r ↔
      t = ("Version ").toList ++ r) ∧
    (versionFromTitle (TitleRule.stripRest (("Roundcube Webmail ").toList)) t = some r ↔
      t = ("Roundcube Webmail ").toList ++ r) ∧
    (versionFromTitle (TitleRule.tokenAfter (("Froxlor ").toList)) t = some r ↔
      ∃ rest, t = ("Froxlor ").toList ++ rest ∧ r = firstTokenOf rest) :=
  ⟨stripRest_iff _ t r, stripRest_iff _ t r, tokenAfter_froxlor_iff t r⟩

/-- Witness for C7 (amended) at concrete titles. -/
theorem literal_head_rules_witness :
    (("Version 0.11.5.1").toList : Str) = ("Version ").toList ++ ("0.11.5.1").toList ∧
    ∃ rest, (("Froxlor 0.10.38.2 final").toList : Str) = ("Froxlor ").toList ++ rest ∧
      (("0.10.38.2").toList : Str) = firstTokenOf rest :=
  ⟨(literal_head_rules_characterization (("Version 0.11.5.1").toList)
      (("0.11.5.1").toList)).1.mp rfl,
   (literal_head_rules_characterization (("Froxlor 0.10.38.2 final").toList)
      (("0.10.38.2").toList)).2.2.mp rfl⟩

/-- Counterexample to claim C7 as stated: for the signal-cli rule the title
`Version 1.2.3 hotfix` yields the whole remainder `1.2.3 hotfix`, not the
first whitespace-delimited token `1.2.3` the claim predicts. -/
theorem stripRest_not_first_token :
    versionFromTitle (TitleRule.stripRest (("Version ").toList))
      (("Version 1.2.3 hotfix").toList) = some (("1.2.3 hotfix").toList) ∧
    specFirstTokenCandidate (("Version ").toList) (("Version 1.2.3 hotfix").toList)
      = some (("1.2.3").toList) ∧
    versionFromTitle (TitleRule.stripRest (("Version ").toList))
        (("Version 1.2.3 hotfix").toList)
      ≠ specFirstTokenCandidate (("Version ").toList) (("Version 1.2.3 hotfix").toList) := by
  refine ⟨rfl, rfl, by decide⟩

/-! ## Aggregation: determinism and independence -/

theorem aggregate_lookup {reg : List Plugin} (hnd : (reg.map softwareName).Nodup)
    {p : Plugin} (hp : p ∈ reg) (env : Env) :
    (aggregate reg env).lookup (softwareName p) = some (runPlugin env p) := by
  induction reg with
  | nil => cases hp
  | cons q qs ih =>
    simp only [aggregate, List.map_cons] at hnd ⊢
    rcases List.mem_cons.mp hp with rfl | hp'
    · rw [List.lookup_cons]
      simp [beq_self_eq_true]
    · have hnd' := (List.nodup_cons.mp hnd).2
      have hqnotin := (List.nodup_cons.mp hnd).1
      have hne : softwareName p ≠ softwareName q := by
        intro he
        exact hqnotin (he ▸ List.mem_map_of_mem softwareName hp')
      rw [List.lookup_cons]
      have hbeq : (softwareName p == softwareName q) = false := by
        simp [hne]
      rw [hbeq]
      have ihq := ih hnd' hp'
      simpa [aggregate] using ihq

/-- Claim C8: the aggregate is a deterministic function of each extractor's
configuration and its own fetched response: against environments that agree
on what a registered plugin fetches, the aggregate entry under that plugin's
software name is exactly that plugin's run on its response, independent of
the other plugins' responses and of the registry's invocation order (any
permutation of the registry yields the same entry). -/
theorem most_recent_pointwise (env env' : Env) (p : Plugin) (hp : p ∈ registry)
    (hagree : envAgreeAt env env' p) :
    (most_recent env).lookup (softwareName p) = some (runPlugin env p) ∧
    (most_recent env').lookup (softwareName p) = some (runPlugin env p) ∧
    ∀ reg, registry.Perm reg →
      (aggregate reg env).lookup (softwareName p) = some (runPlugin env p) := by
  have hnd : (registry.map softwareName).Nodup := by decide
  have hrun : runPlugin env' p = runPlugin env p := by
    cases p with
    | wordpress =>
      unfold envAgreeAt at hagree
      simp only [runPlugin, hagree]
    | github n u rp rule =>
      unfold envAgreeAt at hagree
      simp only [runPlugin, hagree]
  refine ⟨aggregate_lookup hnd hp env, ?_, ?_⟩
  · rw [← hrun]
    exact aggregate_lookup hnd hp env'
  · intro reg hperm
    exact aggregate_lookup ((hperm.map softwareName).nodup_iff.mp hnd)
      (hperm.mem_iff.mp hp) env

/-- Witness for C8: concrete environments, the Wordpress plugin, and the
reversed registry as the permutation. -/
theorem most_recent_pointwise_witness :
    (aggregate registry.reverse ⟨[], fun _ _ => []⟩).lookup (softwareName Plugin.wordpress)
      = some (runPlugin ⟨[], fun _ _ => []⟩ Plugin.wordpress) :=
  (most_recent_pointwise ⟨[], fun _ _ => []⟩ ⟨[], fun _ _ => []⟩ Plugin.wordpress
    (by decide) rfl).2.2 registry.reverse (List.reverse_perm registry).symm

/-- Witness for C4 at a concrete pair of versions. -/
theorem version_lt_numeric_witness :
    Version.lt ⟨[0, 9, 7]⟩ ⟨[0, 10, 1]⟩ = true :=
  (version_lt_numeric.1 0 9 7 0 10 1).mpr (by omega)

/-- Witness for C9 at a concrete version. -/
theorem version_roundTrip_witness :
    Version.parse (Version.format ⟨[10, 2, 33]⟩) = some ⟨[10, 2, 33]⟩ :=
  version_roundTrip 10 2 33

end VersionRssApi
